import Mathlib

/-!
Verification development for the semantic-search core of the kg-sv30
repository.  The Python sources under `src/src/search_core` and
`src/src/search_api` are shallowly embedded: pure functions become Lean
functions over `ℚ`-valued vectors, stateful components (the embedding
cache, the result-queue map, the result cache) become explicit state
passing, and fallible entry points return `Except`/`Option`/`Bool`
exactly where the Python code reports failure to its caller.
-/

namespace KGSV

/-! ### Vectors and similarity (src/src/search_core/scoring.py) -/

/-- Embedding vector: a finite sequence of numbers (numpy float arrays are
modelled over `ℚ`). -/
abbrev Vec := List ℚ

/-- Pointwise product-sum of two vectors, the meaning of `np.dot` on two
1-D arrays of equal length. -/
def dot (a b : Vec) : ℚ :=
  ((a.zip b).map (fun p => p.1 * p.2)).sum

/-- Sum of squares of a vector; `sumSq v = 1` states that `v` has unit
L2 norm, which is how the store's pre-normalized vectors arrive. -/
def sumSq (a : Vec) : ℚ :=
  (a.map (fun x => x * x)).sum

/-- `cosine_similarity` (scoring.py:21-42): the dot product of the two
vectors.  `np.dot` raises on a shape mismatch and the handler returns
`0.0`, hence the length guard. -/
def cosine_similarity (q d : Vec) : ℚ :=
  if q.length = d.length then dot q d else 0

/-! ### Nodes and search results -/

/-- A graph node dictionary: its `"id"` entry plus the remaining
key/value entries (`attrs`).  Values irrelevant to scoring are kept as
strings, which is all `score_nodes` ever reads from them. -/
structure Node where
  id : String
  attrs : List (String × String)
deriving DecidableEq

/-- `node.get(k, dflt)` on the node dictionary (for keys other than
`"id"`, which the embedding store does not use as a field name). -/
def Node.getD (n : Node) (k dflt : String) : String :=
  match n.attrs.find? (fun kv => kv.1 = k) with
  | some kv => kv.2
  | none => dflt

/-- The per-node match record built by `score_nodes`: node id, the
`match_info.score`, the display name of the matched field, and the
matched text `node.get(best_field, "")`.  The constant
`match_type = "semantic"` carries no information and is omitted. -/
structure SearchResult where
  id : String
  score : ℚ
  field : String
  text : String
deriving DecidableEq

/-- Leftmost, non-overlapping substring replacement on character lists,
the semantics of Python's `str.replace`. -/
def replaceSub (pat rep : List Char) : List Char → List Char
  | [] => []
  | c :: rest =>
    if pat.isPrefixOf (c :: rest) ∧ pat.length ≠ 0 then
      rep ++ replaceSub pat rep (rest.drop (pat.length - 1))
    else
      c :: replaceSub pat rep rest
termination_by l => l.length
decreasing_by
  · simp [List.length_drop]; omega
  · simp

/-- Python `s.replace(pat, rep)` for a non-empty pattern. -/
def pyReplace (s pat rep : String) : String :=
  ⟨replaceSub pat.data rep.data s.data⟩

/-- `field_display_name = best_field.replace("_text", "").replace("_", " ")`
(scoring.py:118). -/
def displayName (field : String) : String :=
  pyReplace (pyReplace field "_text" "") "_" " "

/-! ### score_nodes / limit_results / scale_scores -/

/-- First-match association lookup, the meaning of a Python dict read
(dict keys are unique). -/
def lookupAssoc {β : Type} (l : List (String × β)) (k : String) : Option β :=
  (l.find? (fun kv => kv.1 = k)).map (fun kv => kv.2)

/-- The embedding store snapshot `node_embeddings`: node id → field
name → vector, in dict insertion order. -/
abbrev EmbStore := List (String × List (String × Vec))

/-- `node_map = {node["id"]: node for node in nodes}` followed by a
lookup: on duplicate ids the dict comprehension keeps the last node. -/
def nodeMapFind (nodes : List Node) (nid : String) : Option Node :=
  nodes.reverse.find? (fun n => n.id = nid)

/-- One iteration of the best-field scan of `score_nodes`
(scoring.py:103-110): the running `(best_score, best_field)` pair is
replaced only on strict improvement (`score > best_score`). -/
def bestStep (q : Vec) (best : ℚ × String) (fv : String × Vec) : ℚ × String :=
  if best.1 < cosine_similarity q fv.2 then (cosine_similarity q fv.2, fv.1) else best

/-- The best-field scan of `score_nodes` (scoring.py:100-110): running
best starts at `(0.0, "")`. -/
def bestMatch (q : Vec) (fields : List (String × Vec)) : ℚ × String :=
  fields.foldl (bestStep q) (0, "")

/-- Descending-score comparison used to model
`results.sort(key=score, reverse=True)`. -/
def rScore (a b : SearchResult) : Prop := b.score ≤ a.score

instance : DecidableRel rScore :=
  fun a b => inferInstanceAs (Decidable (b.score ≤ a.score))

instance : IsTotal SearchResult rScore :=
  ⟨fun a b => le_total b.score a.score⟩

instance : IsTrans SearchResult rScore :=
  ⟨fun _ _ _ h h' => le_trans h' h⟩

/-- The loop body of `score_nodes` for one node id: skip ids absent from
`node_map`, compute the best field, and emit a match record when
`best_score >= score_threshold` (the threshold is an inclusive bound). -/
def emitNode (q : Vec) (nodes : List Node) (emb : EmbStore) (t : ℚ) (nid : String) :
    Option SearchResult :=
  match nodeMapFind nodes nid with
  | none => none
  | some node =>
    match lookupAssoc emb nid with
    | none => none
    | some fields =>
      if t ≤ (bestMatch q fields).1 then
        some { id := node.id, score := (bestMatch q fields).1,
               field := displayName (bestMatch q fields).2,
               text := node.getD (bestMatch q fields).2 "" }
      else none

/-- `SearchScorer.score_nodes` (scoring.py:83-154) on the pure data
path: iterate node ids in ascending sorted order, apply `emitNode` to
each, and finally stable-sort by score descending.  CPython's
`list.sort` and `sorted` are stable sorts, which any stable sort (here
insertion sort) reproduces exactly.  The optional wall-clock timeout
break never fires in the timeless model and the logging/metrics calls
have no effect on the returned value. -/
def scoreNodes (q : Vec) (nodes : List Node) (emb : EmbStore) (t : ℚ) :
    List SearchResult :=
  let ids := List.insertionSort (fun a b : String => a ≤ b) (emb.map Prod.fst)
  List.insertionSort rScore (ids.filterMap (emitNode q nodes emb t))

/-- `SearchScorer.limit_results` (scoring.py:156-170):
`results[:top_k] if top_k > 0 else results`.  `top_k` is a Python int
and may be negative. -/
def limit_results (results : List SearchResult) (top_k : ℤ) : List SearchResult :=
  if 0 < top_k then results.take top_k.toNat else results

/-- `SearchScorer.scale_scores` (scoring.py:172-196): multiply every
result's score by the scale factor (default 8.0). -/
def scale_scores (results : List SearchResult) (factor : ℚ) : List SearchResult :=
  results.map (fun r => { r with score := r.score * factor })

/-! ### Stability of the stable sorts in `scoreNodes` -/

lemma pairwise_orderedInsert_of {α : Type} (r S : α → α → Prop) [DecidableRel r]
    (hrs : ∀ a b, ¬ r a b → S b a) (a : α) :
    ∀ l : List α, List.Pairwise S (a :: l) → List.Pairwise S (l.orderedInsert r a) := by
  intro l
  induction l with
  | nil => intro _; simp
  | cons b l ih =>
    intro h
    rw [List.orderedInsert]
    by_cases hr : r a b
    · simpa [hr] using h
    · rw [if_neg hr]
      obtain ⟨ha, hb⟩ := List.pairwise_cons.mp h
      obtain ⟨hb1, hb2⟩ := List.pairwise_cons.mp hb
      refine List.pairwise_cons.mpr ⟨?_, ?_⟩
      · intro y hy
        rcases (List.mem_orderedInsert r).mp hy with hy | hy
        · exact hy ▸ hrs a b hr
        · exact hb1 y hy
      · refine ih (List.pairwise_cons.mpr ⟨?_, hb2⟩)
        intro y hy
        exact ha y (List.mem_cons_of_mem b hy)

/-- A stable sort preserves any `Pairwise` relation `S` that is vacuous
on strictly ordered pairs (pairs the sort may reorder). -/
lemma pairwise_insertionSort_of {α : Type} (r S : α → α → Prop) [DecidableRel r]
    (hrs : ∀ a b, ¬ r a b → S b a) :
    ∀ l : List α, List.Pairwise S l → List.Pairwise S (l.insertionSort r) := by
  intro l
  induction l with
  | nil => intro _; simp [List.insertionSort]
  | cons a l ih =>
    intro h
    rw [List.insertionSort]
    obtain ⟨ha, hl⟩ := List.pairwise_cons.mp h
    refine pairwise_orderedInsert_of r S hrs a _ (List.pairwise_cons.mpr ⟨?_, ih hl⟩)
    intro y hy
    exact ha y ((List.perm_insertionSort r l).subset hy)

lemma nodeMapFind_id {nodes : List Node} {nid : String} {n : Node}
    (h : nodeMapFind nodes nid = some n) : n.id = nid := by
  have := List.find?_some h
  simpa using this

lemma emitNode_id {q : Vec} {nodes : List Node} {emb : EmbStore} {t : ℚ}
    {nid : String} {x : SearchResult}
    (h : emitNode q nodes emb t nid = some x) : x.id = nid := by
  unfold emitNode at h
  cases hn : nodeMapFind nodes nid with
  | none => simp [hn] at h
  | some node =>
    cases hf : lookupAssoc emb nid with
    | none => simp [hn, hf] at h
    | some fields =>
      simp only [hn, hf] at h
      by_cases hthr : t ≤ (bestMatch q fields).1
      · rw [if_pos hthr] at h
        cases h
        exact nodeMapFind_id hn
      · rw [if_neg hthr] at h
        cases h

/-- The pre-sort result list of `scoreNodes` carries strictly ascending
node ids: the loop visits the store's keys in ascending sorted order and
every emitted record's id equals the visited key. -/
lemma pairwise_id_lt_filterMap_emit (q : Vec) (nodes : List Node) (emb : EmbStore)
    (t : ℚ) (hkeys : (emb.map Prod.fst).Nodup) :
    ((List.insertionSort (fun a b : String => a ≤ b) (emb.map Prod.fst)).filterMap
        (emitNode q nodes emb t)).Pairwise (fun a b => a.id < b.id) := by
  set ids := List.insertionSort (fun a b : String => a ≤ b) (emb.map Prod.fst) with hids
  have hsorted : ids.Pairwise (fun a b : String => a ≤ b) :=
    List.sorted_insertionSort (fun a b : String => a ≤ b) (emb.map Prod.fst)
  have hnodup : ids.Nodup :=
    ((List.perm_insertionSort (fun a b : String => a ≤ b) (emb.map Prod.fst)).nodup_iff).mpr hkeys
  have hlt : ids.Pairwise (fun a b : String => a < b) :=
    (hsorted.and hnodup).imp (fun hab => lt_of_le_of_ne hab.1 hab.2)
  refine List.pairwise_filterMap.mpr (hlt.imp ?_)
  intro a b hab x hx y hy
  rw [emitNode_id hx, emitNode_id hy]
  exact hab

/-- C1: for every store snapshot, candidate node list and threshold, the
list produced by `score_nodes` followed by `limit_results` is sorted in
descending score order, ties are in ascending node-id order, and for
`top_k > 0` the list has at most `top_k` entries. -/
theorem scoreNodes_then_limit_sorted_desc_tiebreak_truncates
    (q : Vec) (nodes : List Node) (emb : EmbStore) (t : ℚ) (top_k : ℤ)
    (hkeys : (emb.map Prod.fst).Nodup) :
    (limit_results (scoreNodes q nodes emb t) top_k).Pairwise
        (fun a b => b.score ≤ a.score ∧ (a.score = b.score → a.id < b.id))
    ∧ (0 < top_k → ((limit_results (scoreNodes q nodes emb t) top_k).length : ℤ) ≤ top_k) := by
  have hpre := pairwise_id_lt_filterMap_emit q nodes emb t hkeys
  have hsortedOut : (scoreNodes q nodes emb t).Pairwise rScore := by
    unfold scoreNodes
    exact List.sorted_insertionSort rScore _
  have hstable : (scoreNodes q nodes emb t).Pairwise
      (fun a b => a.score = b.score → a.id < b.id) := by
    unfold scoreNodes
    refine pairwise_insertionSort_of rScore _ ?_ _ (hpre.imp ?_)
    · intro a b hr heq
      have hlt : a.score < b.score := lt_of_not_le (fun hle => hr hle)
      exact absurd heq (ne_of_gt hlt)
    · intro a b hab _
      exact hab
  have hboth : (scoreNodes q nodes emb t).Pairwise
      (fun a b => b.score ≤ a.score ∧ (a.score = b.score → a.id < b.id)) :=
    hsortedOut.and hstable
  have hsub : List.Sublist (limit_results (scoreNodes q nodes emb t) top_k)
      (scoreNodes q nodes emb t) := by
    unfold limit_results
    split
    · exact List.take_sublist _ _
    · exact List.Sublist.refl _
  refine ⟨hboth.sublist hsub, ?_⟩
  intro hk
  unfold limit_results
  rw [if_pos hk]
  have h1 : (List.take top_k.toNat (scoreNodes q nodes emb t)).length ≤ top_k.toNat := by
    rw [List.length_take]
    exact min_le_left _ _
  calc ((List.take top_k.toNat (scoreNodes q nodes emb t)).length : ℤ)
      ≤ (top_k.toNat : ℤ) := by exact_mod_cast h1
    _ = top_k := Int.toNat_of_nonneg (le_of_lt hk)

/-- C1 witness: the theorem applied at a concrete store with distinct
keys. -/
theorem scoreNodes_then_limit_sorted_desc_tiebreak_truncates_witness :
    ((([("a", [("label", ([1] : Vec))]), ("b", [("label", ([1] : Vec))])] : EmbStore).map
        Prod.fst).Nodup)
    ∧ ((limit_results (scoreNodes [1] [⟨"a", []⟩, ⟨"b", []⟩]
          [("a", [("label", [1])]), ("b", [("label", [1])])] 0) 1).Pairwise
        (fun a b => b.score ≤ a.score ∧ (a.score = b.score → a.id < b.id))
      ∧ (0 < (1 : ℤ) → ((limit_results (scoreNodes [1] [⟨"a", []⟩, ⟨"b", []⟩]
          [("a", [("label", [1])]), ("b", [("label", [1])])] 0) 1).length : ℤ) ≤ 1)) :=
  ⟨by decide,
   scoreNodes_then_limit_sorted_desc_tiebreak_truncates [1] [⟨"a", []⟩, ⟨"b", []⟩]
     [("a", [("label", [1])]), ("b", [("label", [1])])] 0 1 (by decide)⟩

/-- C9: `limit_results` returns the whole list unchanged for
`top_k = 0` (unbounded) and at most `top_k` results for `top_k > 0`. -/
theorem limit_results_zero_unbounded_pos_truncates
    (results : List SearchResult) (top_k : ℤ) :
    (top_k = 0 → limit_results results top_k = results)
    ∧ (0 < top_k → ((limit_results results top_k).length : ℤ) ≤ top_k) := by
  constructor
  · rintro rfl
    simp [limit_results]
  · intro hk
    unfold limit_results
    rw [if_pos hk]
    have h1 : (List.take top_k.toNat results).length ≤ top_k.toNat := by
      rw [List.length_take]
      exact min_le_left _ _
    calc ((List.take top_k.toNat results).length : ℤ)
        ≤ (top_k.toNat : ℤ) := by exact_mod_cast h1
      _ = top_k := Int.toNat_of_nonneg (le_of_lt hk)

/-- C9 witness: both branches of the theorem at concrete inputs. -/
theorem limit_results_zero_unbounded_pos_truncates_witness :
    (limit_results [] 0 = [] )
    ∧ (((limit_results [] 3).length : ℤ) ≤ 3) :=
  ⟨(limit_results_zero_unbounded_pos_truncates [] 0).1 rfl,
   (limit_results_zero_unbounded_pos_truncates [] 3).2 (by decide)⟩

/-! ### Score bounds (C8) and the zero-score fallback (C10) -/

lemma sumSq_nil : sumSq [] = 0 := rfl

lemma sumSq_cons (x : ℚ) (a : Vec) : sumSq (x :: a) = x * x + sumSq a := by
  simp [sumSq]

lemma sumSq_nonneg (a : Vec) : 0 ≤ sumSq a := by
  induction a with
  | nil => simp [sumSq_nil]
  | cons x a ih =>
    rw [sumSq_cons]
    nlinarith [mul_self_nonneg x]

lemma dot_nil_left (b : Vec) : dot [] b = 0 := rfl

lemma dot_nil_right (a : Vec) : dot a [] = 0 := by
  cases a <;> rfl

lemma dot_cons (x y : ℚ) (a b : Vec) : dot (x :: a) (y :: b) = x * y + dot a b := by
  simp [dot]

/-- Cauchy-Schwarz for the truncating list dot product. -/
lemma dot_sq_le_sumSq_mul (a : Vec) : ∀ b : Vec, (dot a b) ^ 2 ≤ sumSq a * sumSq b := by
  induction a with
  | nil =>
    intro b
    simp [dot_nil_left, sumSq_nil]
  | cons x a ih =>
    intro b
    cases b with
    | nil =>
      simp only [dot_nil_right, sumSq_nil, mul_zero]
      simp
    | cons y b =>
      have h := ih b
      have hA := sumSq_nonneg a
      have hB := sumSq_nonneg b
      rw [dot_cons, sumSq_cons, sumSq_cons]
      rcases eq_or_lt_of_le hB with hB0 | hBpos
      · have hb' : sumSq b = 0 := hB0.symm
        have hd : dot a b = 0 := by nlinarith [sq_nonneg (dot a b)]
        rw [hd, hb']
        nlinarith [mul_nonneg hA (mul_self_nonneg y)]
      · nlinarith [sq_nonneg (x * sumSq b - y * dot a b),
          mul_nonneg (add_nonneg (mul_self_nonneg y) hB) (sub_nonneg.mpr h)]

/-- On unit-norm vectors every cosine similarity is at most 1. -/
lemma cosine_similarity_le_one {q v : Vec} (hq : sumSq q = 1) (hv : sumSq v = 1) :
    cosine_similarity q v ≤ 1 := by
  unfold cosine_similarity
  split
  · have h := dot_sq_le_sumSq_mul q v
    rw [hq, hv] at h
    nlinarith [sq_nonneg (dot q v - 1)]
  · norm_num

/-- The running best of the field scan never decreases. -/
lemma bestStep_foldl_init_le (q : Vec) (fs : List (String × Vec)) :
    ∀ init : ℚ × String, init.1 ≤ (fs.foldl (bestStep q) init).1 := by
  induction fs with
  | nil => intro init; simp
  | cons g gs ih =>
    intro init
    rw [List.foldl_cons]
    refine le_trans ?_ (ih (bestStep q init g))
    unfold bestStep
    split
    · exact le_of_lt (by assumption)
    · exact le_refl _

/-- The final best score dominates every field similarity. -/
lemma bestStep_foldl_ge_sim (q : Vec) (fs : List (String × Vec)) :
    ∀ init : ℚ × String, ∀ fv ∈ fs,
      cosine_similarity q fv.2 ≤ (fs.foldl (bestStep q) init).1 := by
  induction fs with
  | nil => intro init fv hfv; cases hfv
  | cons g gs ih =>
    intro init fv hfv
    rw [List.foldl_cons]
    rcases List.mem_cons.mp hfv with rfl | hfv
    · refine le_trans ?_ (bestStep_foldl_init_le q gs (bestStep q init fv))
      unfold bestStep
      split
      · exact le_refl _
      · exact le_of_not_lt (by assumption)
    · exact ih (bestStep q init g) fv hfv

/-- The final best pair is the initial pair or comes from some field. -/
lemma bestStep_foldl_cases (q : Vec) (fs : List (String × Vec)) :
    ∀ init : ℚ × String,
      fs.foldl (bestStep q) init = init
      ∨ ∃ fv ∈ fs, (fs.foldl (bestStep q) init).1 = cosine_similarity q fv.2
          ∧ (fs.foldl (bestStep q) init).2 = fv.1 := by
  induction fs with
  | nil => intro init; exact Or.inl rfl
  | cons g gs ih =>
    intro init
    rw [List.foldl_cons]
    rcases ih (bestStep q init g) with h | ⟨fv, hfv, h1, h2⟩
    · rw [h]
      unfold bestStep
      split
      · exact Or.inr ⟨g, List.mem_cons_self g gs, rfl, rfl⟩
      · exact Or.inl rfl
    · exact Or.inr ⟨fv, List.mem_cons_of_mem g hfv, h1, h2⟩

/-- If no field improves on the running best, the scan returns it. -/
lemma bestStep_foldl_fixed (q : Vec) (fs : List (String × Vec)) (init : ℚ × String)
    (h : ∀ fv ∈ fs, cosine_similarity q fv.2 ≤ init.1) :
    fs.foldl (bestStep q) init = init := by
  induction fs with
  | nil => rfl
  | cons g gs ih =>
    rw [List.foldl_cons]
    have hg : ¬ init.1 < cosine_similarity q g.2 :=
      not_lt.mpr (h g (List.mem_cons_self g gs))
    rw [show bestStep q init g = init from by unfold bestStep; rw [if_neg hg]]
    exact ih (fun fv hfv => h fv (List.mem_cons_of_mem g hfv))

lemma bestMatch_nonneg (q : Vec) (fs : List (String × Vec)) : 0 ≤ (bestMatch q fs).1 :=
  bestStep_foldl_init_le q fs (0, "")

lemma bestMatch_le_one {q : Vec} {fs : List (String × Vec)} (hq : sumSq q = 1)
    (hfs : ∀ fv ∈ fs, sumSq fv.2 = 1) : (bestMatch q fs).1 ≤ 1 := by
  unfold bestMatch
  rcases bestStep_foldl_cases q fs (0, "") with h | ⟨fv, hfv, h1, _⟩
  · rw [h]
    norm_num
  · rw [h1]
    exact cosine_similarity_le_one hq (hfs fv hfv)

/-- Invariant of the field scan: the best score stays non-negative, and
once the best field is non-empty the best score is strictly positive
(updates require strict improvement over a non-negative value). -/
lemma bestStep_foldl_field_pos (q : Vec) (fs : List (String × Vec)) :
    ∀ init : ℚ × String, 0 ≤ init.1 → (init.2 ≠ "" → 0 < init.1) →
      0 ≤ (fs.foldl (bestStep q) init).1
      ∧ ((fs.foldl (bestStep q) init).2 ≠ "" → 0 < (fs.foldl (bestStep q) init).1) := by
  induction fs with
  | nil => intro init h0 hf; exact ⟨h0, hf⟩
  | cons g gs ih =>
    intro init h0 hf
    rw [List.foldl_cons]
    unfold bestStep
    split
    · exact ih _ (le_of_lt (lt_of_le_of_lt h0 (by assumption)))
        (fun _ => lt_of_le_of_lt h0 (by assumption))
    · exact ih _ h0 hf

/-- A non-empty reported best field always carries a strictly positive
best score. -/
lemma bestMatch_field_pos (q : Vec) (fs : List (String × Vec))
    (h : (bestMatch q fs).2 ≠ "") : 0 < (bestMatch q fs).1 :=
  (bestStep_foldl_field_pos q fs (0, "") (le_refl 0) (fun hne => absurd rfl hne)).2 h

lemma emitNode_some_spec {q : Vec} {nodes : List Node} {emb : EmbStore} {t : ℚ}
    {nid : String} {x : SearchResult} (h : emitNode q nodes emb t nid = some x) :
    ∃ node fields, nodeMapFind nodes nid = some node ∧ lookupAssoc emb nid = some fields
      ∧ t ≤ (bestMatch q fields).1
      ∧ x = { id := node.id, score := (bestMatch q fields).1,
              field := displayName (bestMatch q fields).2,
              text := node.getD (bestMatch q fields).2 "" } := by
  unfold emitNode at h
  cases hn : nodeMapFind nodes nid with
  | none => simp [hn] at h
  | some node =>
    cases hf : lookupAssoc emb nid with
    | none => simp [hn, hf] at h
    | some fields =>
      simp only [hn, hf] at h
      by_cases hthr : t ≤ (bestMatch q fields).1
      · rw [if_pos hthr] at h
        cases h
        exact ⟨node, fields, rfl, rfl, hthr, rfl⟩
      · rw [if_neg hthr] at h
        cases h

lemma emitNode_eq_some {q : Vec} {nodes : List Node} {emb : EmbStore} {t : ℚ}
    {nid : String} {node : Node} {fields : List (String × Vec)}
    (hn : nodeMapFind nodes nid = some node) (hf : lookupAssoc emb nid = some fields)
    (hthr : t ≤ (bestMatch q fields).1) :
    emitNode q nodes emb t nid =
      some { id := node.id, score := (bestMatch q fields).1,
             field := displayName (bestMatch q fields).2,
             text := node.getD (bestMatch q fields).2 "" } := by
  unfold emitNode
  simp only [hn, hf]
  rw [if_pos hthr]

lemma lookupAssoc_some_mem {β : Type} {l : List (String × β)} {k : String} {v : β}
    (h : lookupAssoc l k = some v) : (k, v) ∈ l := by
  unfold lookupAssoc at h
  cases hfind : l.find? (fun kv => kv.1 = k) with
  | none => rw [hfind] at h; cases h
  | some kv =>
    rw [hfind] at h
    have hmem := List.mem_of_find?_eq_some hfind
    have hkey : kv.1 = k := by simpa using List.find?_some hfind
    cases h
    have : kv = (k, kv.2) := by
      cases kv
      simp_all
    rw [this] at hmem
    exact hmem

lemma lookupAssoc_some_key_mem {β : Type} {l : List (String × β)} {k : String} {v : β}
    (h : lookupAssoc l k = some v) : k ∈ l.map Prod.fst := by
  exact List.mem_map.mpr ⟨(k, v), lookupAssoc_some_mem h, rfl⟩

lemma mem_scoreNodes_iff {q : Vec} {nodes : List Node} {emb : EmbStore} {t : ℚ}
    {r : SearchResult} :
    r ∈ scoreNodes q nodes emb t
      ↔ ∃ nid, nid ∈ emb.map Prod.fst ∧ emitNode q nodes emb t nid = some r := by
  unfold scoreNodes
  rw [(List.perm_insertionSort rScore _).mem_iff, List.mem_filterMap]
  constructor
  · rintro ⟨nid, hmem, hemit⟩
    exact ⟨nid,
      (List.perm_insertionSort (fun a b : String => a ≤ b) _).subset hmem, hemit⟩
  · rintro ⟨nid, hmem, hemit⟩
    exact ⟨nid,
      (List.perm_insertionSort (fun a b : String => a ≤ b) _).mem_iff.mpr hmem, hemit⟩

/-- C8 (amended): on unit-norm vectors every emitted pre-scale score
lies in `[t, 1]`; a node present in both the store and the candidate
list is emitted exactly when the scan's clamped best score (which starts
at 0) reaches the inclusive threshold, and for `t > 0` that clamped test
coincides with "some field similarity is at least `t`". -/
theorem score_range_and_clamped_threshold
    (q : Vec) (nodes : List Node) (emb : EmbStore) (t : ℚ)
    (hq : sumSq q = 1) (hv : ∀ kv ∈ emb, ∀ fv ∈ kv.2, sumSq fv.2 = 1) :
    (∀ r ∈ scoreNodes q nodes emb t, t ≤ r.score ∧ r.score ≤ 1)
    ∧ (∀ nid node fields, nodeMapFind nodes nid = some node →
        lookupAssoc emb nid = some fields →
        ((∃ r ∈ scoreNodes q nodes emb t, r.id = nid) ↔ t ≤ (bestMatch q fields).1))
    ∧ (∀ fields, 0 < t →
        (t ≤ (bestMatch q fields).1 ↔ ∃ fv ∈ fields, t ≤ cosine_similarity q fv.2)) := by
  refine ⟨?_, ?_, ?_⟩
  · intro r hr
    obtain ⟨nid, _, hemit⟩ := mem_scoreNodes_iff.mp hr
    obtain ⟨node, fields, hn, hf, hthr, hx⟩ := emitNode_some_spec hemit
    subst hx
    refine ⟨hthr, ?_⟩
    exact bestMatch_le_one hq (hv (nid, fields) (lookupAssoc_some_mem hf))
  · intro nid node fields hn hf
    constructor
    · rintro ⟨r, hr, hid⟩
      obtain ⟨nid', _, hemit⟩ := mem_scoreNodes_iff.mp hr
      have : nid' = nid := by rw [← emitNode_id hemit, hid]
      subst this
      obtain ⟨node', fields', _, hf', hthr, _⟩ := emitNode_some_spec hemit
      rw [hf] at hf'
      cases hf'
      exact hthr
    · intro hthr
      refine ⟨_, mem_scoreNodes_iff.mpr
        ⟨nid, lookupAssoc_some_key_mem hf, emitNode_eq_some hn hf hthr⟩, ?_⟩
      exact nodeMapFind_id hn
  · intro fields ht
    constructor
    · intro hthr
      rcases bestStep_foldl_cases q fields (0, "") with h | ⟨fv, hfv, h1, _⟩
      · exfalso
        unfold bestMatch at hthr
        rw [h] at hthr
        exact absurd (lt_of_lt_of_le ht hthr) (lt_irrefl 0)
      · refine ⟨fv, hfv, ?_⟩
        unfold bestMatch at hthr
        rw [h1] at hthr
        exact hthr
    · rintro ⟨fv, hfv, hsim⟩
      exact le_trans hsim (bestStep_foldl_ge_sim q fields (0, "") fv hfv)

lemma sumSq_single_one : sumSq [(1 : ℚ)] = 1 := by
  simp [sumSq]

lemma sumSq_single_neg_one : sumSq [(-1 : ℚ)] = 1 := by
  simp [sumSq]

/-- C8 witness: the theorem applied to a unit query vector and an empty
store. -/
theorem score_range_and_clamped_threshold_witness :
    (sumSq [(1 : ℚ)] = 1)
    ∧ (∀ r ∈ scoreNodes [(1 : ℚ)] [] [] 0, (0 : ℚ) ≤ r.score ∧ r.score ≤ 1) :=
  ⟨sumSq_single_one,
   (score_range_and_clamped_threshold [(1 : ℚ)] [] [] 0 sumSq_single_one
      (by simp)).1⟩

lemma cos_one_neg_one : cosine_similarity [(1 : ℚ)] [(-1 : ℚ)] = -1 := by
  norm_num [cosine_similarity, dot]

/-- C8 counterexample: with threshold `t = 0` and a single field of
similarity `-1`, the node is emitted (with clamped score 0) although its
best per-field similarity is below the threshold, so "included exactly
when the best per-field similarity is ≥ t" fails as stated. -/
theorem score_threshold_inclusion_cex :
    sumSq [(1 : ℚ)] = 1 ∧ sumSq [(-1 : ℚ)] = 1
    ∧ ¬ ((∃ r ∈ scoreNodes [(1 : ℚ)] [⟨"n", []⟩] [("n", [("f", [(-1 : ℚ)])])] 0, r.id = "n")
          ↔ (0 : ℚ) ≤ cosine_similarity [(1 : ℚ)] [(-1 : ℚ)]) := by
  refine ⟨sumSq_single_one, sumSq_single_neg_one, ?_⟩
  intro hiff
  have hmem : ∃ r ∈ scoreNodes [(1 : ℚ)] [⟨"n", []⟩] [("n", [("f", [(-1 : ℚ)])])] 0,
      r.id = "n" := by
    have hn : nodeMapFind [⟨"n", []⟩] "n" = some ⟨"n", []⟩ := rfl
    have hf : lookupAssoc [("n", [("f", [(-1 : ℚ)])])] "n" = some [("f", [(-1 : ℚ)])] := rfl
    have hbest : bestMatch [(1 : ℚ)] [("f", [(-1 : ℚ)])] = (0, "") := by
      apply bestStep_foldl_fixed
      intro fv hfv
      rcases List.mem_singleton.mp hfv with rfl
      rw [cos_one_neg_one]
      norm_num
    refine ⟨_, mem_scoreNodes_iff.mpr ⟨"n", by simp, emitNode_eq_some hn hf ?_⟩, rfl⟩
    rw [hbest]
  have := hiff.mp hmem
  rw [cos_one_neg_one] at this
  norm_num at this

lemma displayName_empty : displayName "" = "" := by
  simp [displayName, pyReplace, replaceSub]

/-- C10 (amended): when every field similarity of a node present in both
the store and the candidate list is non-positive and the threshold is
non-positive, the node is still emitted with clamped score 0, an empty
matched-field name, and matched text equal to the node's attribute under
the empty field name (the empty string unless the node dictionary has an
empty-named key); every emitted score is non-negative, and a non-empty
reported field always has strictly positive best score. -/
theorem zero_score_fallback
    (q : Vec) (nodes : List Node) (emb : EmbStore) (t : ℚ) (nid : String)
    (node : Node) (fields : List (String × Vec))
    (ht : t ≤ 0) (hn : nodeMapFind nodes nid = some node)
    (hf : lookupAssoc emb nid = some fields)
    (hneg : ∀ fv ∈ fields, cosine_similarity q fv.2 ≤ 0) :
    (∃ r ∈ scoreNodes q nodes emb t,
        r.id = nid ∧ r.score = 0 ∧ r.field = "" ∧ r.text = node.getD "" "")
    ∧ (∀ r ∈ scoreNodes q nodes emb t, 0 ≤ r.score)
    ∧ (∀ fs : List (String × Vec), (bestMatch q fs).2 ≠ "" → 0 < (bestMatch q fs).1) := by
  have hbest : bestMatch q fields = (0, "") := bestStep_foldl_fixed q fields (0, "") hneg
  refine ⟨?_, ?_, ?_⟩
  · have hthr : t ≤ (bestMatch q fields).1 := by
      rw [hbest]
      exact ht
    refine ⟨_, mem_scoreNodes_iff.mpr
      ⟨nid, lookupAssoc_some_key_mem hf, emitNode_eq_some hn hf hthr⟩,
      nodeMapFind_id hn, ?_, ?_, ?_⟩
    · rw [hbest]
    · rw [hbest]
      exact displayName_empty
    · rw [hbest]
  · intro r hr
    obtain ⟨nid', _, hemit⟩ := mem_scoreNodes_iff.mp hr
    obtain ⟨node', fields', _, _, _, hx⟩ := emitNode_some_spec hemit
    subst hx
    exact bestMatch_nonneg q fields'
  · exact fun fs => bestMatch_field_pos q fs

lemma neg_sims_single : ∀ fv ∈ [("f", [(-1 : ℚ)])], cosine_similarity [(1 : ℚ)] fv.2 ≤ 0 := by
  intro fv hfv
  rcases List.mem_singleton.mp hfv with rfl
  rw [cos_one_neg_one]
  norm_num

/-- C10 witness: the theorem applied to a one-node store whose single
field has similarity `-1` against the query. -/
theorem zero_score_fallback_witness :
    ((0 : ℚ) ≤ 0)
    ∧ (∃ r ∈ scoreNodes [(1 : ℚ)] [⟨"n", []⟩] [("n", [("f", [(-1 : ℚ)])])] 0,
        r.id = "n" ∧ r.score = 0 ∧ r.field = "" ∧ r.text = Node.getD ⟨"n", []⟩ "" "") :=
  ⟨le_refl 0,
   (zero_score_fallback [(1 : ℚ)] [⟨"n", []⟩] [("n", [("f", [(-1 : ℚ)])])] 0 "n"
      ⟨"n", []⟩ [("f", [(-1 : ℚ)])] (le_refl 0) rfl rfl neg_sims_single).1⟩

/-- C10 counterexample: a node dictionary carrying an empty-named key
makes the emitted fallback record's matched text non-empty
(`node.get("", "") = "x"`), so "empty matched text" fails as stated. -/
theorem zero_score_fallback_text_cex :
    cosine_similarity [(1 : ℚ)] [(-1 : ℚ)] ≤ 0
    ∧ ¬ (∃ r ∈ scoreNodes [(1 : ℚ)] [⟨"n", [("", "x")]⟩]
          [("n", [("f", [(-1 : ℚ)])])] 0, r.text = "") := by
  constructor
  · rw [cos_one_neg_one]
    norm_num
  · rintro ⟨r, hr, htext⟩
    obtain ⟨nid, _, hemit⟩ := mem_scoreNodes_iff.mp hr
    obtain ⟨node, fields, hn, hf, _, hx⟩ := emitNode_some_spec hemit
    have hnid : nid = "n" := by
      have := lookupAssoc_some_key_mem hf
      simpa using this
    subst hnid
    have hnode : node = ⟨"n", [("", "x")]⟩ := by
      have h2 : nodeMapFind [⟨"n", [("", "x")]⟩] "n" = some ⟨"n", [("", "x")]⟩ := rfl
      rw [h2] at hn
      exact (Option.some_inj.mp hn).symm
    have hfields : fields = [("f", [(-1 : ℚ)])] := by
      have h2 : lookupAssoc [("n", [("f", [(-1 : ℚ)])])] "n" = some [("f", [(-1 : ℚ)])] := rfl
      rw [h2] at hf
      exact (Option.some_inj.mp hf).symm
    have hbest : bestMatch [(1 : ℚ)] fields = (0, "") := by
      rw [hfields]
      exact bestStep_foldl_fixed _ _ _ neg_sims_single
    subst hx
    rw [hbest, hnode] at htext
    exact absurd htext (by decide)

/-! ### Embedding cache (src/src/search_core/embeddings.py)

`EmbeddingManager.get_embedding` consults two independent layers: the
manager's own `embedding_cache` dict (keyed by `hash(text)`; modelled by
text, assuming no hash collisions) which is never evicted, and the
`functools.lru_cache(maxsize=EMBEDDING_CACHE_SIZE)` wrapped around
`_cached_get_embedding`.  The model is loaded and the text non-empty at
the call sites of interest, in which case `model.encode` yields a
vector, so the encode capability is a total function. -/

/-- `EMBEDDING_CACHE_SIZE` (search_utils/config.py). -/
def EMBEDDING_CACHE_SIZE : ℕ := 1000

structure EmbCacheState where
  /-- the `functools.lru_cache` entries, most-recently-used first -/
  lruCache : List (String × Vec)
  /-- `self.embedding_cache`, in dict insertion order; never evicted -/
  sharedCache : List (String × Vec)
  hits : ℕ
  misses : ℕ
  /-- number of `model.encode` invocations -/
  modelCalls : ℕ
deriving DecidableEq

def emptyEmbCache : EmbCacheState := ⟨[], [], 0, 0, 0⟩

/-- `_cached_get_embedding` (embeddings.py:142-173) under its
`lru_cache(maxsize=cap)` wrapper: a hit moves the entry to
most-recently-used; a miss calls the model, inserts at the front and
drops the least-recently-used entry when over capacity. -/
def cachedGetEmbedding (cap : ℕ) (encode : String → Vec) (text : String)
    (s : EmbCacheState) : Vec × EmbCacheState :=
  match s.lruCache.find? (fun kv => kv.1 = text) with
  | some kv =>
      (kv.2, { s with lruCache := (text, kv.2) :: s.lruCache.eraseP (fun kv => kv.1 = text) })
  | none =>
      (encode text,
       { s with
         lruCache := ((text, encode text) :: s.lruCache).take cap
         modelCalls := s.modelCalls + 1 })

/-- `EmbeddingManager.get_embedding` (embeddings.py:175-206): `None` when
the model is not ready or the text is empty; otherwise the shared dict is
consulted first (hit), and only on a shared miss does the call reach the
`lru_cache` layer, after which the result is appended to the shared
dict. -/
def get_embedding (cap : ℕ) (ready : Bool) (encode : String → Vec) (text : String)
    (s : EmbCacheState) : Option Vec × EmbCacheState :=
  if ¬ ready ∨ text = "" then (none, s)
  else
    match lookupAssoc s.sharedCache text with
    | some v => (some v, { s with hits := s.hits + 1 })
    | none =>
        let r := cachedGetEmbedding cap encode text s
        (some r.1, { r.2 with
                     misses := r.2.misses + 1
                     sharedCache := r.2.sharedCache ++ [(text, r.1)] })

/-- Run a sequence of `get_embedding` calls with the model ready. -/
def runGets (cap : ℕ) (encode : String → Vec) (texts : List String)
    (s : EmbCacheState) : EmbCacheState :=
  texts.foldl (fun st t => (get_embedding cap true encode t st).2) s

/-- The cache state after embedding the fresh distinct texts `p` in
order, starting from the empty state. -/
def predState (cap : ℕ) (encode : String → Vec) (p : List String) : EmbCacheState :=
  { lruCache := (p.reverse.take cap).map (fun t => (t, encode t)),
    sharedCache := p.map (fun t => (t, encode t)),
    hits := 0, misses := p.length, modelCalls := p.length }

lemma take_cons_map_take {α β : Type} (cap : ℕ) (x : α) (l : List α) (f : α → β) :
    (f x :: (l.take cap).map f).take cap = ((x :: l).take cap).map f := by
  cases cap with
  | zero => simp
  | succ c =>
    rw [List.take_succ_cons, List.take_succ_cons, List.map_cons]
    congr 1
    rw [List.map_take, List.map_take, List.take_take]
    rw [Nat.min_eq_left (Nat.le_succ c)]

lemma lookupAssoc_map_none {encode : String → Vec} {t : String} {p : List String}
    (hnew : t ∉ p) : lookupAssoc (p.map (fun u => (u, encode u))) t = none := by
  unfold lookupAssoc
  rw [List.find?_eq_none.mpr]
  · rfl
  · intro kv hkv
    obtain ⟨u, hu, rfl⟩ := List.mem_map.mp hkv
    simp only [decide_eq_true_eq]
    rintro rfl
    exact hnew hu

lemma get_embedding_step (cap : ℕ) (encode : String → Vec) (t : String) (p : List String)
    (hnew : t ∉ p) (hne : t ≠ "") :
    get_embedding cap true encode t (predState cap encode p)
      = (some (encode t), predState cap encode (p ++ [t])) := by
  unfold get_embedding
  rw [if_neg (by simp [hne])]
  have hshared : lookupAssoc (predState cap encode p).sharedCache t = none :=
    lookupAssoc_map_none hnew
  rw [hshared]
  have hlru : (predState cap encode p).lruCache.find? (fun kv => kv.1 = t) = none := by
    rw [List.find?_eq_none.mpr]
    intro kv hkv
    obtain ⟨u, hu, rfl⟩ := List.mem_map.mp hkv
    simp only [decide_eq_true_eq]
    rintro rfl
    exact hnew (List.mem_reverse.mp (List.mem_of_mem_take hu))
  have hcached : cachedGetEmbedding cap encode t (predState cap encode p)
      = (encode t,
         { predState cap encode p with
           lruCache := ((t, encode t) :: (predState cap encode p).lruCache).take cap,
           modelCalls := (predState cap encode p).modelCalls + 1 }) := by
    unfold cachedGetEmbedding
    rw [hlru]
  simp only [hcached]
  refine congrArg (Prod.mk _) ?_
  unfold predState
  simp only [List.reverse_append, List.reverse_cons, List.reverse_nil, List.nil_append,
    List.singleton_append, List.map_append, List.map_cons, List.map_nil,
    List.length_append, List.length_cons, List.length_nil, List.length_map]
  refine congrArg₂ (fun a b => EmbCacheState.mk a b 0 (p.length + 1) (p.length + 1))
    (take_cons_map_take cap t p.reverse (fun u => (u, encode u))) rfl

lemma runGets_spec (cap : ℕ) (encode : String → Vec) :
    ∀ (ts p : List String), (∀ t ∈ ts, t ∉ p ∧ t ≠ "") → ts.Nodup →
      runGets cap encode ts (predState cap encode p) = predState cap encode (p ++ ts) := by
  intro ts
  induction ts with
  | nil => intro p _ _; simp [runGets]
  | cons t ts ih =>
    intro p hcond hnodup
    have hstep : (get_embedding cap true encode t (predState cap encode p)).2
        = predState cap encode (p ++ [t]) := by
      rw [get_embedding_step cap encode t p (hcond t (List.mem_cons_self t ts)).1
        (hcond t (List.mem_cons_self t ts)).2]
    unfold runGets
    rw [List.foldl_cons]
    rw [hstep]
    have hrest := ih (p ++ [t]) ?_ (List.Nodup.of_cons hnodup)
    · unfold runGets at hrest
      rw [hrest, List.append_assoc]
      rfl
    · intro u hu
      refine ⟨?_, (hcond u (List.mem_cons_of_mem t hu)).2⟩
      rw [List.mem_append]
      rintro (h | h)
      · exact (hcond u (List.mem_cons_of_mem t hu)).1 h
      · rcases List.mem_singleton.mp h with rfl
        exact (List.nodup_cons.mp hnodup).1 hu

lemma runGets_from_empty (cap : ℕ) (encode : String → Vec) (ts : List String)
    (h1 : ∀ t ∈ ts, t ≠ "") (h2 : ts.Nodup) :
    runGets cap encode ts emptyEmbCache = predState cap encode ts := by
  have h0 : emptyEmbCache = predState cap encode [] := by
    simp [emptyEmbCache, predState]
  rw [h0, runGets_spec cap encode ts [] (fun t ht => ⟨by simp, h1 t ht⟩) h2]
  rfl

/-- C2 (amended): after `capacity + 1` distinct non-empty texts, the
inner `lru_cache` holds exactly `capacity` entries with the oldest text
evicted, but the manager's `embedding_cache` dict holds all
`capacity + 1` entries, and a repeat request for the oldest text is
served from that dict as a cache hit without going back to the model. -/
theorem embedding_cache_after_capacity_plus_one
    (cap : ℕ) (encode : String → Vec) (t0 : String) (rest : List String)
    (hnodup : (t0 :: rest).Nodup) (hne : ∀ t ∈ t0 :: rest, t ≠ "")
    (hlen : rest.length = cap) :
    (runGets cap encode (t0 :: rest) emptyEmbCache).sharedCache.length = cap + 1
    ∧ (runGets cap encode (t0 :: rest) emptyEmbCache).lruCache.length = cap
    ∧ lookupAssoc (runGets cap encode (t0 :: rest) emptyEmbCache).lruCache t0 = none
    ∧ get_embedding cap true encode t0 (runGets cap encode (t0 :: rest) emptyEmbCache)
        = (some (encode t0),
           { runGets cap encode (t0 :: rest) emptyEmbCache with
             hits := (runGets cap encode (t0 :: rest) emptyEmbCache).hits + 1 }) := by
  have hrun := runGets_from_empty cap encode (t0 :: rest) hne hnodup
  have hrev : (t0 :: rest).reverse.take cap = rest.reverse := by
    rw [List.reverse_cons]
    rw [show cap = rest.reverse.length from by simp [hlen]]
    exact List.take_left rest.reverse [t0]
  have ht0 : t0 ∉ rest := (List.nodup_cons.mp hnodup).1
  rw [hrun]
  refine ⟨by simp [predState, hlen], ?_, ?_, ?_⟩
  · simp [predState, hrev, hlen]
  · unfold predState
    simp only [hrev]
    unfold lookupAssoc
    rw [List.find?_eq_none.mpr]
    · rfl
    · intro kv hkv
      obtain ⟨u, hu, rfl⟩ := List.mem_map.mp hkv
      simp only [decide_eq_true_eq]
      rintro rfl
      exact ht0 (List.mem_reverse.mp hu)
  · unfold get_embedding
    rw [if_neg (by simp [hne t0 (List.mem_cons_self t0 rest)])]
    have hfound : lookupAssoc (predState cap encode (t0 :: rest)).sharedCache t0
        = some (encode t0) := by
      unfold predState lookupAssoc
      simp
    rw [hfound]

/-- C2 witness: the amended theorem at capacity 1 with texts
`["a", "b"]`. -/
theorem embedding_cache_after_capacity_plus_one_witness :
    ((["a", "b"] : List String).Nodup ∧ (∀ t ∈ (["a", "b"] : List String), t ≠ ""))
    ∧ (runGets 1 (fun _ => ([1] : Vec)) ["a", "b"] emptyEmbCache).sharedCache.length = 2
    ∧ (runGets 1 (fun _ => ([1] : Vec)) ["a", "b"] emptyEmbCache).lruCache.length = 1 :=
  ⟨⟨by decide, by decide⟩,
   (embedding_cache_after_capacity_plus_one 1 (fun _ => ([1] : Vec)) "a" ["b"]
      (by decide) (by decide) rfl).1,
   (embedding_cache_after_capacity_plus_one 1 (fun _ => ([1] : Vec)) "a" ["b"]
      (by decide) (by decide) rfl).2.1⟩

/-- C2 counterexample: with capacity 1 and the two distinct texts
`"a", "b"`, the embedding cache layer does not end up with exactly
`capacity` entries whose oldest member must be recomputed by the model:
the shared dict keeps both entries, and a repeat request for `"a"` is a
hit that performs no model call. -/
theorem embedding_cache_boundedness_cex :
    ¬ ((runGets 1 (fun _ => ([1] : Vec)) ["a", "b"] emptyEmbCache).sharedCache.length = 1
       ∧ (get_embedding 1 true (fun _ => ([1] : Vec)) "a"
            (runGets 1 (fun _ => ([1] : Vec)) ["a", "b"] emptyEmbCache)).2.modelCalls
          = (runGets 1 (fun _ => ([1] : Vec)) ["a", "b"] emptyEmbCache).modelCalls + 1) := by
  rw [runGets_from_empty 1 (fun _ => ([1] : Vec)) ["a", "b"] (by decide) (by decide)]
  rintro ⟨h1, _⟩
  simp [predState] at h1

/-! ### Store loading (`EmbeddingManager.load_embeddings`, embeddings.py:53-115)

The parsed JSON document is modelled by its two optional top-level
entries; `None` stands for an absent key.  The numeric conversion of a
well-typed vector list cannot fail, and the model-name comparison only
logs a warning. -/

structure StoreMetadata where
  model : String
  dimensions : ℕ
  generated_at : ℚ
  node_count : ℕ
deriving DecidableEq

structure EmbeddingsFileData where
  embeddings : Option EmbStore
  metadata : Option StoreMetadata

/-- `load_embeddings` on a parsed document: the only validation is that
both top-level keys are present; on success the store is replaced
wholesale, on failure the previous store is kept and `False` returned. -/
def load_embeddings (data : EmbeddingsFileData) (old : EmbStore) : Bool × EmbStore :=
  match data.embeddings, data.metadata with
  | some embs, some _ => (true, embs)
  | _, _ => (false, old)

/-- C4 counterexample: a store whose single vector has length 3 while
the metadata records dimension 2 loads successfully, so "any vector
whose length disagrees with the recorded dimension is a load-time
failure" is false of the code. -/
theorem load_embeddings_no_dimension_check_cex :
    (load_embeddings
        ⟨some [("n", [("label", [1, 2, 3])])], some ⟨"model-m", 2, 0, 1⟩⟩ []).1 = true
    ∧ (2 : ℕ) ≠ ([(1 : ℚ), 2, 3] : Vec).length :=
  ⟨rfl, by decide⟩

/-- C4 (amended): loading succeeds exactly when both required top-level
keys are present; vector lengths are never compared against the
metadata dimension; on success the file's store replaces the old one
wholesale and on failure the old store is kept. -/
theorem load_embeddings_succeeds_iff_keys_present
    (data : EmbeddingsFileData) (old : EmbStore) :
    ((load_embeddings data old).1 = true
        ↔ data.embeddings.isSome ∧ data.metadata.isSome)
    ∧ (∀ embs meta, data.embeddings = some embs → data.metadata = some meta →
        (load_embeddings data old).2 = embs)
    ∧ ((load_embeddings data old).1 = false → (load_embeddings data old).2 = old) := by
  obtain ⟨e, m⟩ := data
  cases e <;> cases m <;>
    simp [load_embeddings]

/-- C4 witness: the amended theorem at a well-formed document. -/
theorem load_embeddings_succeeds_iff_keys_present_witness :
    (load_embeddings ⟨some [("n", [("label", [1])])], some ⟨"m", 1, 0, 1⟩⟩ []).2
      = [("n", [("label", [1])])] :=
  (load_embeddings_succeeds_iff_keys_present
      ⟨some [("n", [("label", [1])])], some ⟨"m", 1, 0, 1⟩⟩ []).2.1
    [("n", [("label", [1])])] ⟨"m", 1, 0, 1⟩ rfl rfl

/-! ### Async engine result queues (`AsyncSearchEngine`, async_engine.py)

`result_queues` maps request ids to per-request outcome queues.  A
worker result is a ranked result list; error payloads are irrelevant to
the cleanup behaviour and are not distinguished. -/

inductive EngineReply where
  | invalidRequest
  | timedOut
  | result (r : List SearchResult)
deriving DecidableEq

structure EngineState where
  resultQueues : List (String × List (List SearchResult))
deriving DecidableEq

/-- `queue_search_request` (async_engine.py:163-197), restricted to its
effect on `result_queues`: a fresh empty queue for the new request id. -/
def queue_search_request (rid : String) (s : EngineState) : EngineState :=
  ⟨s.resultQueues ++ [(rid, [])]⟩

/-- The worker's post after processing (async_engine.py:82-83): the
result is appended only if the request id is still present. -/
def post_result (rid : String) (r : List SearchResult) (s : EngineState) : EngineState :=
  if (s.resultQueues.find? (fun kv => kv.1 = rid)).isSome then
    ⟨s.resultQueues.map (fun kv => if kv.1 = rid then (kv.1, kv.2 ++ [r]) else kv)⟩
  else s

/-- `get_search_result` (async_engine.py:199-228): unknown id is an
error; a queued result is popped and the map entry deleted; when the
wait expires with the queue still empty (`queue.Empty`), the timeout
error is returned and the map entry is left in place. -/
def get_search_result (rid : String) (s : EngineState) : EngineReply × EngineState :=
  match lookupAssoc s.resultQueues rid with
  | none => (.invalidRequest, s)
  | some [] => (.timedOut, s)
  | some (r :: _) => (.result r, ⟨s.resultQueues.eraseP (fun kv => kv.1 = rid)⟩)

lemma lookupAssoc_eraseP_self {β : Type} :
    ∀ {l : List (String × β)}, (l.map Prod.fst).Nodup → ∀ k : String,
      lookupAssoc (l.eraseP (fun kv => kv.1 = k)) k = none := by
  intro l
  induction l with
  | nil => intro _ k; rfl
  | cons kv l ih =>
    intro hnodup k
    by_cases hk : kv.1 = k
    · rw [List.eraseP_cons_of_pos (by simp [hk])]
      unfold lookupAssoc
      rw [List.find?_eq_none.mpr]
      · rfl
      · intro u hu
        simp only [decide_eq_true_eq]
        intro huk
        have : kv.1 ∈ l.map Prod.fst := by
          rw [hk, ← huk]
          exact List.mem_map.mpr ⟨u, hu, rfl⟩
        exact (List.nodup_cons.mp (by simpa using hnodup)).1 this
    · rw [List.eraseP_cons_of_neg (by simp [hk])]
      unfold lookupAssoc
      rw [List.find?_cons_of_neg _ (by simp [hk])]
      exact ih (by simpa using (List.nodup_cons.mp (by simpa using hnodup)).2) k

/-- C5 (amended): the request-id entry is removed from `result_queues`
only when a result is retrieved before the wait expires; when the await
times out, the timeout error is returned with the state unchanged, so
the entry (and any result the worker posts later) is retained. -/
theorem get_search_result_cleanup_only_on_success
    (rid : String) (s : EngineState)
    (hnodup : (s.resultQueues.map Prod.fst).Nodup) :
    (lookupAssoc s.resultQueues rid = some [] →
      get_search_result rid s = (.timedOut, s))
    ∧ (∀ r rest, lookupAssoc s.resultQueues rid = some (r :: rest) →
      (get_search_result rid s).1 = .result r
      ∧ lookupAssoc (get_search_result rid s).2.resultQueues rid = none)
    ∧ (lookupAssoc s.resultQueues rid = none →
      get_search_result rid s = (.invalidRequest, s)) := by
  refine ⟨?_, ?_, ?_⟩
  · intro h
    unfold get_search_result
    rw [h]
  · intro r rest h
    unfold get_search_result
    rw [h]
    exact ⟨rfl, lookupAssoc_eraseP_self hnodup rid⟩
  · intro h
    unfold get_search_result
    rw [h]

/-- C5 witness: the amended theorem at a one-request state, covering
both the timeout branch and the success branch. -/
theorem get_search_result_cleanup_only_on_success_witness :
    (get_search_result "r1" ⟨[("r1", [])]⟩ = (.timedOut, ⟨[("r1", [])]⟩))
    ∧ ((get_search_result "r1" ⟨[("r1", [[]])]⟩).1 = .result []
        ∧ lookupAssoc (get_search_result "r1" ⟨[("r1", [[]])]⟩).2.resultQueues "r1" = none) :=
  ⟨(get_search_result_cleanup_only_on_success "r1" ⟨[("r1", [])]⟩ (by decide)).1 rfl,
   (get_search_result_cleanup_only_on_success "r1" ⟨[("r1", [[]])]⟩ (by decide)).2.1
     [] [] rfl⟩

/-- C5 counterexample: a submitted request whose await times out leaves
its entry in `result_queues` (the reply is the timeout error but the
request id is still present), so the map does retain entries for
requests whose await has already returned. -/
theorem get_search_result_timeout_leak_cex :
    (get_search_result "r1" (queue_search_request "r1" ⟨[]⟩)).1 = EngineReply.timedOut
    ∧ lookupAssoc
        (get_search_result "r1" (queue_search_request "r1" ⟨[]⟩)).2.resultQueues "r1"
      ≠ none := by
  constructor
  · rfl
  · intro h
    simp [get_search_result, queue_search_request, lookupAssoc] at h

/-! ### Load classification and timeout adaptation
(search_utils/config.py, performance.py, async_engine.py) -/

/-- `SYSTEM_LOAD_THRESHOLDS['high']` (config.py). -/
def SYSTEM_LOAD_THRESHOLDS_high : ℚ := 8/10

/-- `SYSTEM_LOAD_THRESHOLDS['medium']` (config.py). -/
def SYSTEM_LOAD_THRESHOLDS_medium : ℚ := 6/10

/-- `PerformanceOptimizer.get_load_level` (performance.py:54-69): note
the inclusive `>=` comparisons. -/
def get_load_level (load : ℚ) : String :=
  if load ≥ SYSTEM_LOAD_THRESHOLDS_high then "high"
  else if load ≥ SYSTEM_LOAD_THRESHOLDS_medium then "medium"
  else "low"

/-- `LOAD_ADJUSTMENTS['timeout_factor']` (config.py); the argument is
always one of the three level names. -/
def timeout_factor (level : String) : ℚ :=
  if level = "high" then 7/10 else if level = "medium" then 9/10 else 1

/-- `LOAD_ADJUSTMENTS['batch_size']` (config.py). -/
def batch_size (level : String) : ℕ :=
  if level = "high" then 200 else if level = "medium" then 500 else 1000

/-- `PerformanceOptimizer.optimize_search_params` (performance.py:72-98)
restricted to the two adjusted values: the optimized timeout (absent
stays absent) and the batch-size hint. -/
def optimize_search_params (load : ℚ) (timeout : Option ℚ) : Option ℚ × ℕ :=
  (match timeout with
   | some t => some (t * timeout_factor (get_load_level load))
   | none => none,
   batch_size (get_load_level load))

/-- The timeout adjustment actually applied by
`AsyncSearchClient.search_async` (async_engine.py:300-305): a strict
`system_load > SYSTEM_LOAD_THRESHOLDS['high']` comparison, and Python's
truthiness test `and timeout` leaves a zero timeout unadjusted. -/
def adjusted_timeout (system_load : ℚ) (timeout : Option ℚ) : Option ℚ :=
  match timeout with
  | none => none
  | some t =>
    if system_load > SYSTEM_LOAD_THRESHOLDS_high ∧ t ≠ 0 then some (t * (7/10))
    else some t

/-- C6 counterexample: at a recorded load of exactly 0.8 (which is
`≥ 0.8`), `search_async` applies the unreduced timeout: the applied
value for base 10 is 10, not `0.7 * 10 = 7`. -/
theorem high_load_boundary_cex :
    SYSTEM_LOAD_THRESHOLDS_high ≤ (8/10 : ℚ)
    ∧ adjusted_timeout (8/10) (some 10) = some 10
    ∧ some ((10 : ℚ)) ≠ some ((10 : ℚ) * (7/10)) := by
  refine ⟨le_refl _, ?_, by norm_num⟩
  simp only [adjusted_timeout, SYSTEM_LOAD_THRESHOLDS_high]
  rw [if_neg]
  rintro ⟨h, _⟩
  exact lt_irrefl _ h

/-- C6 (amended): the timeout applied to the next request equals
`0.7 * T` only for a recorded load strictly greater than 0.8 (and a
truthy base timeout); at or below 0.8 the applied timeout is unchanged.
The `PerformanceOptimizer` classifies `load ≥ 0.8` (inclusive) as high
and its unused-in-this-path `optimize_search_params` would apply the
0.7 factor and the 200-node batch hint there. -/
theorem high_load_timeout_adjustment (load T : ℚ) :
    (load > SYSTEM_LOAD_THRESHOLDS_high → T ≠ 0 →
      adjusted_timeout load (some T) = some (T * (7/10)))
    ∧ (load ≤ SYSTEM_LOAD_THRESHOLDS_high →
      adjusted_timeout load (some T) = some T)
    ∧ (load ≥ SYSTEM_LOAD_THRESHOLDS_high →
      get_load_level load = "high"
      ∧ (optimize_search_params load (some T)).1 = some (T * (7/10))
      ∧ (optimize_search_params load (some T)).2 = 200) := by
  refine ⟨?_, ?_, ?_⟩
  · intro hl hT
    simp only [adjusted_timeout]
    rw [if_pos ⟨hl, hT⟩]
  · intro hl
    simp only [adjusted_timeout]
    rw [if_neg]
    rintro ⟨h, _⟩
    exact absurd hl (not_le.mpr h)
  · intro hl
    have hlevel : get_load_level load = "high" := by
      unfold get_load_level
      rw [if_pos hl]
    refine ⟨hlevel, ?_, ?_⟩
    · unfold optimize_search_params
      rw [hlevel]
      norm_num [timeout_factor]
    · unfold optimize_search_params
      rw [hlevel]
      norm_num [batch_size]

lemma one_gt_high : (1 : ℚ) > SYSTEM_LOAD_THRESHOLDS_high := by
  norm_num [SYSTEM_LOAD_THRESHOLDS_high]

lemma zero_le_high : (0 : ℚ) ≤ SYSTEM_LOAD_THRESHOLDS_high := by
  norm_num [SYSTEM_LOAD_THRESHOLDS_high]

/-- C6 witness: all three branches of the theorem at concrete loads. -/
theorem high_load_timeout_adjustment_witness :
    adjusted_timeout 1 (some 10) = some ((10 : ℚ) * (7/10))
    ∧ adjusted_timeout 0 (some 10) = some 10
    ∧ get_load_level SYSTEM_LOAD_THRESHOLDS_high = "high" :=
  ⟨(high_load_timeout_adjustment 1 10).1 one_gt_high (by norm_num),
   (high_load_timeout_adjustment 0 10).2.1 zero_le_high,
   ((high_load_timeout_adjustment SYSTEM_LOAD_THRESHOLDS_high 10).2.2 (le_refl _)).1⟩

/-! ### Result-cache key derivation (`SearchResultCache._create_cache_key`)

Python builds the key as the string
`f"{query}|score_threshold:{t},top_k:{k}"` (the `sorted` call puts
`score_threshold` before `top_k`).  Python's `str` renders distinct int
and float values as distinct strings of sign and digits; the model
renders the rational threshold as `num/den` through the decimal
renderings `Int.repr`/`Nat.repr`, which is likewise injective and uses
none of the separator characters `|` and `,`.  The lemmas below
establish exactly those two facts. -/

def digitChars : List Char := ['0', '1', '2', '3', '4', '5', '6', '7', '8', '9']

lemma digitChar_mem_digitChars : ∀ d : Fin 10, Nat.digitChar d ∈ digitChars := by decide

lemma digitChar_inj_fin : ∀ d e : Fin 10, Nat.digitChar d = Nat.digitChar e → d = e := by
  decide

/-- Undoes `Nat.digitChar` on decimal digits. -/
def charToDigit (c : Char) : ℕ := c.toNat - 48

lemma charToDigit_digitChar : ∀ d : Fin 10, charToDigit (Nat.digitChar d) = d := by decide

lemma toDigitsCore_spec :
    ∀ (fuel n : ℕ) (acc : List Char), 0 < n → n < fuel →
      Nat.toDigitsCore 10 fuel n acc
        = ((Nat.digits 10 n).map Nat.digitChar).reverse ++ acc := by
  intro fuel
  induction fuel with
  | zero => intro n acc h0 hf; omega
  | succ f ih =>
    intro n acc h0 hf
    rw [Nat.toDigitsCore]
    by_cases h10 : n / 10 = 0
    · simp only [h10, if_pos]
      rw [Nat.digits_def' (by norm_num : 1 < 10) h0, h10]
      simp
    · simp only [h10, if_neg, ite_false]
      have hlt : n / 10 < n := Nat.div_lt_self h0 (by norm_num)
      rw [ih (n / 10) _ (Nat.pos_of_ne_zero h10) (by omega)]
      rw [Nat.digits_def' (by norm_num : 1 < 10) h0]
      simp [List.append_assoc]

lemma natRepr_data (n : ℕ) (h : 0 < n) :
    (Nat.repr n).data = ((Nat.digits 10 n).map Nat.digitChar).reverse := by
  show ((Nat.toDigits 10 n).asString).data = _
  unfold Nat.toDigits
  rw [toDigitsCore_spec (n + 1) n [] h (Nat.lt_succ_self n)]
  simp [List.asString]

lemma natRepr_zero_data : (Nat.repr 0).data = ['0'] := rfl

lemma natRepr_chars (n : ℕ) : ∀ c ∈ (Nat.repr n).data, c ∈ digitChars := by
  cases Nat.eq_zero_or_pos n with
  | inl h0 =>
    subst h0
    intro c hc
    rw [natRepr_zero_data] at hc
    rcases List.mem_singleton.mp hc with rfl
    decide
  | inr hpos =>
    intro c hc
    rw [natRepr_data n hpos] at hc
    obtain ⟨d, hd, rfl⟩ := List.mem_map.mp (List.mem_reverse.mp hc)
    exact digitChar_mem_digitChars ⟨d, Nat.digits_lt_base (by norm_num) hd⟩

lemma natRepr_data_injective {m n : ℕ} (h : (Nat.repr m).data = (Nat.repr n).data) :
    m = n := by
  have hz : ∀ k : ℕ, 0 < k → (Nat.repr k).data ≠ ['0'] := by
    intro k hk hdata
    rw [natRepr_data k hk] at hdata
    have hmap : (Nat.digits 10 k).map Nat.digitChar = ['0'] := by
      rw [← List.reverse_reverse ((Nat.digits 10 k).map Nat.digitChar), hdata]
      rfl
    cases hd : Nat.digits 10 k with
    | nil => rw [hd] at hmap; cases hmap
    | cons d ds =>
      rw [hd] at hmap
      simp only [List.map_cons, List.cons.injEq] at hmap
      obtain ⟨hd0, hds⟩ := hmap
      have hdlt : d < 10 :=
        Nat.digits_lt_base (by norm_num) (hd ▸ List.mem_cons_self d ds)
      have : (⟨d, hdlt⟩ : Fin 10) = ⟨0, by norm_num⟩ :=
        digitChar_inj_fin _ _ (by simpa using hd0)
      have hdzero : d = 0 := congrArg Fin.val this
      have hk0 : k = 0 := by
        have hofd := Nat.ofDigits_digits 10 k
        rw [hd, List.map_eq_nil_iff.mp hds, hdzero] at hofd
        simpa [Nat.ofDigits] using hofd.symm
      omega
  cases Nat.eq_zero_or_pos m with
  | inl hm =>
    cases Nat.eq_zero_or_pos n with
    | inl hn => omega
    | inr hn =>
      subst hm
      rw [natRepr_zero_data] at h
      exact absurd h.symm (hz n hn)
  | inr hm =>
    cases Nat.eq_zero_or_pos n with
    | inl hn =>
      subst hn
      rw [natRepr_zero_data] at h
      exact absurd h (hz m hm)
    | inr hn =>
      rw [natRepr_data m hm, natRepr_data n hn] at h
      have hmap := List.reverse_injective h
      have hcd : ∀ k : ℕ, ((Nat.digits 10 k).map Nat.digitChar).map charToDigit
          = Nat.digits 10 k := by
        intro k
        rw [List.map_map]
        refine List.map_congr_left ?_ |>.trans (List.map_id _)
        intro d hd
        exact charToDigit_digitChar ⟨d, Nat.digits_lt_base (by norm_num) hd⟩
      have hdigits : Nat.digits 10 m = Nat.digits 10 n := by
        rw [← hcd m, ← hcd n, hmap]
      exact Nat.digits.injective 10 hdigits

lemma natRepr_ne_nil (n : ℕ) : (Nat.repr n).data ≠ [] := by
  cases Nat.eq_zero_or_pos n with
  | inl h0 => subst h0; rw [natRepr_zero_data]; simp
  | inr hpos =>
    rw [natRepr_data n hpos]
    simp [Nat.digits_ne_nil_iff_ne_zero.mpr (Nat.pos_iff_ne_zero.mp hpos)]

lemma intRepr_ofNat_data (m : ℕ) : (Int.repr (Int.ofNat m)).data = (Nat.repr m).data := rfl

lemma intRepr_negSucc_data (m : ℕ) :
    (Int.repr (Int.negSucc m)).data = '-' :: (Nat.repr (m + 1)).data := by
  show (("-" ++ Nat.repr (m + 1)) : String).data = _
  rw [String.data_append]
  rfl

lemma intRepr_chars (i : ℤ) : ∀ c ∈ (Int.repr i).data, c ∈ '-' :: digitChars := by
  cases i with
  | ofNat m =>
    intro c hc
    rw [intRepr_ofNat_data] at hc
    exact List.mem_cons_of_mem _ (natRepr_chars m c hc)
  | negSucc m =>
    intro c hc
    rw [intRepr_negSucc_data] at hc
    rcases List.mem_cons.mp hc with rfl | hc
    · exact List.mem_cons_self _ _
    · exact List.mem_cons_of_mem _ (natRepr_chars (m + 1) c hc)

lemma intRepr_data_injective {i j : ℤ} (h : (Int.repr i).data = (Int.repr j).data) :
    i = j := by
  have hhead : ∀ m : ℕ, ∀ X : List Char, (Nat.repr m).data ≠ '-' :: X := by
    intro m X hdata
    have : '-' ∈ (Nat.repr m).data := by rw [hdata]; exact List.mem_cons_self _ _
    have := natRepr_chars m '-' this
    simp [digitChars] at this
  cases i with
  | ofNat m =>
    cases j with
    | ofNat n =>
      rw [intRepr_ofNat_data, intRepr_ofNat_data] at h
      exact congrArg Int.ofNat (natRepr_data_injective h)
    | negSucc n =>
      rw [intRepr_ofNat_data, intRepr_negSucc_data] at h
      exact absurd h (hhead m _)
  | negSucc m =>
    cases j with
    | ofNat n =>
      rw [intRepr_negSucc_data, intRepr_ofNat_data] at h
      exact absurd h.symm (hhead n _)
    | negSucc n =>
      rw [intRepr_negSucc_data, intRepr_negSucc_data] at h
      have htail : (Nat.repr (m + 1)).data = (Nat.repr (n + 1)).data :=
        ((List.cons.injEq _ _ _ _).mp h).2
      have := natRepr_data_injective htail
      exact congrArg Int.negSucc (by omega)

/-- Injective, separator-free rendering of the rational threshold,
standing in for Python's injective `str` on floats. -/
def ratRepr (q : ℚ) : String :=
  Int.repr q.num ++ "/" ++ Nat.repr q.den

lemma ratRepr_data (q : ℚ) :
    (ratRepr q).data = (Int.repr q.num).data ++ '/' :: (Nat.repr q.den).data := by
  unfold ratRepr
  rw [String.data_append, String.data_append]
  simp

lemma comma_not_mem_intRepr (i : ℤ) : ',' ∉ (Int.repr i).data := by
  intro h
  have := intRepr_chars i ',' h
  simp [digitChars] at this

lemma comma_not_mem_natRepr (n : ℕ) : ',' ∉ (Nat.repr n).data := by
  intro h
  have := natRepr_chars n ',' h
  simp [digitChars] at this

lemma slash_not_mem_intRepr (i : ℤ) : '/' ∉ (Int.repr i).data := by
  intro h
  have := intRepr_chars i '/' h
  simp [digitChars] at this

lemma comma_not_mem_ratRepr (q : ℚ) : ',' ∉ (ratRepr q).data := by
  rw [ratRepr_data]
  intro h
  rcases List.mem_append.mp h with h | h
  · exact comma_not_mem_intRepr q.num h
  · rcases List.mem_cons.mp h with h | h
    · cases h
    · exact comma_not_mem_natRepr q.den h

/-- Splitting a concatenation at a separator absent from both left
parts. -/
lemma append_sep_inj {α : Type} {sep : α} :
    ∀ {l1 l2 r1 r2 : List α}, l1 ++ sep :: r1 = l2 ++ sep :: r2 →
      sep ∉ l1 → sep ∉ l2 → l1 = l2 ∧ r1 = r2 := by
  intro l1
  induction l1 with
  | nil =>
    intro l2 r1 r2 h h1 h2
    cases l2 with
    | nil => simpa using h
    | cons b l2 =>
      rw [List.nil_append] at h
      have hb : sep = b := (List.cons.injEq _ _ _ _).mp h |>.1
      exact absurd (hb ▸ List.mem_cons_self b l2) h2
  | cons a l1 ih =>
    intro l2 r1 r2 h h1 h2
    cases l2 with
    | nil =>
      rw [List.nil_append] at h
      have ha : a = sep := (List.cons.injEq _ _ _ _).mp h |>.1
      exact absurd (ha ▸ List.mem_cons_self a l1) h1
    | cons b l2 =>
      have hab := (List.cons.injEq _ _ _ _).mp h
      obtain ⟨heq, htails⟩ := ih hab.2 (fun hm => h1 (List.mem_cons_of_mem a hm))
        (fun hm => h2 (List.mem_cons_of_mem b hm))
      exact ⟨by rw [hab.1, heq], htails⟩

lemma ratRepr_data_injective {p q : ℚ}
    (h : (ratRepr p).data = (ratRepr q).data) : p = q := by
  rw [ratRepr_data, ratRepr_data] at h
  obtain ⟨hnum, hden⟩ :=
    append_sep_inj h (slash_not_mem_intRepr p.num) (slash_not_mem_intRepr q.num)
  exact Rat.ext (intRepr_data_injective hnum) (natRepr_data_injective hden)

/-- The search parameters the facade passes around; only `top_k` and
`score_threshold` enter the cache key. -/
structure SearchParams where
  top_k : ℤ
  score_threshold : ℚ
  timeout : Option ℚ

/-- `SearchResultCache._create_cache_key` (cache.py:193-214):
`f"{query}|score_threshold:{t},top_k:{k}"`. -/
def createCacheKey (query : String) (p : SearchParams) : String :=
  query ++ "|score_threshold:" ++ ratRepr p.score_threshold ++ ","
    ++ "top_k:" ++ Int.repr p.top_k

/-- C7: two requests with the same query derive the same cache key
exactly when they agree on `top_k` and `score_threshold`; in particular
requests differing only in `timeout` (or any parameter other than these
two) share one key, and requests differing in `top_k` or
`score_threshold` get distinct keys. -/
theorem cache_key_depends_exactly_on_topk_and_threshold
    (query : String) (p1 p2 : SearchParams) :
    createCacheKey query p1 = createCacheKey query p2
      ↔ (p1.top_k = p2.top_k ∧ p1.score_threshold = p2.score_threshold) := by
  constructor
  · intro h
    have hd := congrArg String.data h
    simp only [createCacheKey, String.data_append, List.append_assoc] at hd
    have h1 := List.append_cancel_left hd
    have h2 := List.append_cancel_left h1
    simp only [List.singleton_append] at h2
    obtain ⟨hrat, hrest⟩ := append_sep_inj h2
      (comma_not_mem_ratRepr p1.score_threshold)
      (comma_not_mem_ratRepr p2.score_threshold)
    have hint := List.append_cancel_left hrest
    exact ⟨intRepr_data_injective hint, ratRepr_data_injective hrat⟩
  · rintro ⟨hk, ht⟩
    unfold createCacheKey
    rw [hk, ht]

/-- C7 witness: two parameter sets differing only in timeout share a
key; the derived keys store nothing about the timeout. -/
theorem cache_key_depends_exactly_on_topk_and_threshold_witness :
    createCacheKey "education" ⟨10, 1, some 30⟩ = createCacheKey "education" ⟨10, 1, some 5⟩ :=
  (cache_key_depends_exactly_on_topk_and_threshold "education"
      ⟨10, 1, some 30⟩ ⟨10, 1, some 5⟩).mpr ⟨rfl, rfl⟩

/-! ### Result cache (`ExpiringCache`, cache.py:24-143) and the facade
(`SearchClient.search`, client.py:69-157)

The wall clock is threaded explicitly as `now`; entries carry their
insertion timestamp in dict insertion order. -/

structure ExpiringCacheState where
  expiry_seconds : ℚ
  max_size : ℕ
  entries : List (String × List SearchResult × ℚ)
  last_cleanup : ℚ

/-- `ExpiringCache._cleanup`: drop every expired entry. -/
def cleanup (now : ℚ) (s : ExpiringCacheState) : ExpiringCacheState :=
  { s with entries := s.entries.filter (fun e => now - e.2.2 ≤ s.expiry_seconds) }

/-- `ExpiringCache._maybe_cleanup`: sweep at most once per
`expiry_seconds / 3`. -/
def maybe_cleanup (now : ℚ) (s : ExpiringCacheState) : ExpiringCacheState :=
  if now - s.last_cleanup > s.expiry_seconds / 3 then
    { cleanup now s with last_cleanup := now }
  else s

/-- `ExpiringCache.get`: a fresh-enough entry is a hit; an expired entry
is deleted and reported as a miss. -/
def cacheGet (now : ℚ) (key : String) (s : ExpiringCacheState) :
    Option (List SearchResult) × ExpiringCacheState :=
  match (maybe_cleanup now s).entries.find? (fun e => e.1 = key) with
  | some e =>
      if now - e.2.2 ≤ (maybe_cleanup now s).expiry_seconds then
        (some e.2.1, maybe_cleanup now s)
      else
        (none, { maybe_cleanup now s with
                 entries := (maybe_cleanup now s).entries.eraseP (fun e => e.1 = key) })
  | none => (none, maybe_cleanup now s)

/-- `ExpiringCache._remove_oldest_entry`: the first entry carrying the
strictly smallest timestamp, in dict iteration order. -/
def oldestKey (entries : List (String × List SearchResult × ℚ)) : Option String :=
  (entries.foldl
    (fun acc e =>
      match acc with
      | none => some (e.1, e.2.2)
      | some ke => if e.2.2 < ke.2 then some (e.1, e.2.2) else some ke)
    none).map Prod.fst

def removeOldest (s : ExpiringCacheState) : ExpiringCacheState :=
  match oldestKey s.entries with
  | some k => { s with entries := s.entries.eraseP (fun e => e.1 = k) }
  | none => s

/-- Python dict assignment `cache[key] = (value, now)`: update in place
when present, else append. -/
def dictSet (entries : List (String × List SearchResult × ℚ)) (key : String)
    (v : List SearchResult) (now : ℚ) : List (String × List SearchResult × ℚ) :=
  if (entries.find? (fun e => e.1 = key)).isSome then
    entries.map (fun e => if e.1 = key then (e.1, v, now) else e)
  else entries ++ [(key, v, now)]

/-- `ExpiringCache.set`: evict the oldest entry only when the cache is
full and the key is new, then store. -/
def cacheSet (now : ℚ) (key : String) (v : List SearchResult) (s : ExpiringCacheState) :
    ExpiringCacheState :=
  match maybe_cleanup now s with
  | s1 =>
    match (if s1.entries.length ≥ s1.max_size
              ∧ (s1.entries.find? (fun e => e.1 = key)).isSome = false
           then removeOldest s1 else s1) with
    | s2 => { s2 with entries := dictSet s2.entries key v now }

/-- The only error the error-handling design would raise synchronously
at the facade. -/
inductive SearchError where
  | invalidParameters
deriving DecidableEq

structure ClientState where
  embCache : EmbCacheState
  resultCache : ExpiringCacheState

/-- `SearchClient.search` (client.py:69-157).  Every Python `return`
statement in the body maps to `.ok`; the broad `except` handler also
returns `.ok []`, so no exception ever propagates to the caller.  The
body performs no validation of `top_k` or `score_threshold`: both flow
unchanged into `limit_results` and `score_nodes`. -/
def client_search (ready : Bool) (cap : ℕ) (encode : String → Vec) (emb : EmbStore)
    (now : ℚ) (query : String) (nodes : List Node) (top_k : ℤ) (score_threshold : ℚ)
    (timeout : Option ℚ) (use_cache : Bool) (st : ClientState) :
    Except SearchError (List SearchResult) × ClientState :=
  if ¬ ready ∨ query = "" then (.ok [], st)
  else
    match (if use_cache then
             cacheGet now (createCacheKey query ⟨top_k, score_threshold, timeout⟩)
               st.resultCache
           else (none, st.resultCache)) with
    | (some cached, rc1) => (.ok cached, { st with resultCache := rc1 })
    | (none, rc1) =>
      match get_embedding cap ready encode query st.embCache with
      | (none, ec1) => (.ok [], { embCache := ec1, resultCache := rc1 })
      | (some qv, ec1) =>
        if emb = [] then (.ok [], { embCache := ec1, resultCache := rc1 })
        else
          (.ok (scale_scores (limit_results (scoreNodes qv nodes emb score_threshold) top_k) 8),
           { embCache := ec1,
             resultCache :=
               if use_cache then
                 cacheSet now (createCacheKey query ⟨top_k, score_threshold, timeout⟩)
                   (scale_scores
                     (limit_results (scoreNodes qv nodes emb score_threshold) top_k) 8) rc1
               else rc1 })

lemma get_embedding_isSome (cap : ℕ) (encode : String → Vec) (q : String)
    (s : EmbCacheState) (hq : q ≠ "") :
    ∃ v s2, get_embedding cap true encode q s = (some v, s2) := by
  unfold get_embedding
  rw [if_neg (by simp [hq])]
  cases h : lookupAssoc s.sharedCache q with
  | some v => exact ⟨v, _, rfl⟩
  | none =>
    unfold cachedGetEmbedding
    cases h2 : s.lruCache.find? (fun kv => kv.1 = q) with
    | some kv => exact ⟨kv.2, _, rfl⟩
    | none => exact ⟨encode q, _, rfl⟩

/-- C3 (amended): the facade performs no parameter validation and never
raises to the caller: every path of `search` returns `.ok`.  Invalid
values are silently used: with the cache disabled and a non-trivial
store, the returned value is the full scaled pipeline output for
whatever `top_k` and `score_threshold` were passed, and a negative
`top_k` flows into `limit_results`, which returns the entire result
list (negative behaves like "unbounded", it is not clamped). -/
theorem facade_never_raises_and_uses_invalid_params
    (ready : Bool) (cap : ℕ) (encode : String → Vec) (emb : EmbStore) (now : ℚ)
    (query : String) (nodes : List Node) (top_k : ℤ) (t : ℚ) (timeout : Option ℚ)
    (use_cache : Bool) (st : ClientState) :
    (∃ v st2, client_search ready cap encode emb now query nodes top_k t timeout use_cache st
        = (.ok v, st2))
    ∧ (ready = true → query ≠ "" → emb ≠ [] → use_cache = false →
        ∃ qv st2,
          client_search ready cap encode emb now query nodes top_k t timeout use_cache st
            = (.ok (scale_scores (limit_results (scoreNodes qv nodes emb t) top_k) 8), st2))
    ∧ (top_k < 0 → ∀ rs : List SearchResult, limit_results rs top_k = rs) := by
  refine ⟨?_, ?_, ?_⟩
  · unfold client_search
    split
    · exact ⟨[], st, rfl⟩
    · split
      · exact ⟨_, _, rfl⟩
      · split
        · exact ⟨[], _, rfl⟩
        · split
          · exact ⟨[], _, rfl⟩
          · exact ⟨_, _, rfl⟩
  · intro hready hq hemb hcache
    subst hready
    subst hcache
    obtain ⟨qv, s2, hget⟩ := get_embedding_isSome cap encode query st.embCache hq
    have hrun : client_search true cap encode emb now query nodes top_k t timeout false st
        = (.ok (scale_scores (limit_results (scoreNodes qv nodes emb t) top_k) 8),
           ⟨s2, st.resultCache⟩) := by
      unfold client_search
      rw [if_neg (by simp [hq])]
      simp only [Bool.false_eq_true, if_false]
      rw [hget]
      dsimp only
      rw [if_neg hemb]
    exact ⟨qv, ⟨s2, st.resultCache⟩, hrun⟩
  · intro hk rs
    unfold limit_results
    rw [if_neg (by omega)]

/-- C3 witness: the facade applied with `top_k = -1` and an
out-of-range threshold returns `.ok` with the untruncated pipeline
output, and negative `top_k` does not truncate. -/
theorem facade_never_raises_and_uses_invalid_params_witness :
    (∃ qv st2,
        client_search true 1 (fun _ => [(1 : ℚ)]) [("n", [("f", [(1 : ℚ)])])] 0 "q" []
          (-1) (3/2) none false ⟨emptyEmbCache, ⟨300, 50, [], 0⟩⟩
          = (.ok (scale_scores
              (limit_results (scoreNodes qv [] [("n", [("f", [(1 : ℚ)])])] (3/2)) (-1)) 8), st2))
    ∧ limit_results [] (-1) = [] :=
  ⟨(facade_never_raises_and_uses_invalid_params true 1 (fun _ => [(1 : ℚ)])
      [("n", [("f", [(1 : ℚ)])])] 0 "q" [] (-1) (3/2) none false
      ⟨emptyEmbCache, ⟨300, 50, [], 0⟩⟩).2.1 rfl (by decide) (by decide) rfl,
   (facade_never_raises_and_uses_invalid_params true 1 (fun _ => [(1 : ℚ)])
      [("n", [("f", [(1 : ℚ)])])] 0 "q" [] (-1) (3/2) none false
      ⟨emptyEmbCache, ⟨300, 50, [], 0⟩⟩).2.2 (by decide) []⟩

/-- C3 counterexample: a call with negative `top_k` and a threshold
outside `[0, 1]` does not fail: it returns `.ok []` (the parameters are
silently used), never a synchronous parameter-validation error. -/
theorem facade_invalid_params_no_error_cex :
    ((-1 : ℤ) < 0 ∧ ¬ ((0 : ℚ) ≤ 3/2 ∧ (3/2 : ℚ) ≤ 1))
    ∧ (client_search true 1 (fun _ => [(1 : ℚ)]) [] 0 "q" [] (-1) (3/2) none false
        ⟨emptyEmbCache, ⟨300, 50, [], 0⟩⟩).1 = Except.ok [] := by
  refine ⟨⟨by decide, by norm_num⟩, rfl⟩

end KGSV
